import Mathlib

/-!
Verification of the potential-construction and discretization pipeline of a
1-D Schrödinger-equation project.  The development shallowly embeds the two
Python modules:

* `src/potential.py` — physical constants, the softened-Coulomb kernel
  `coulomb_softened`, the windowed lattice sum `V_total`, the unit converter
  `convert_energy`, the boundary-clamped discretizer
  `discretize_potential_with_boundaries` and the piecewise-constant evaluator
  `V_discret_function`;
* `code/potentiel.py` — the earlier kernel `potentiel_coulombien_adouci`.

Machine floating point is modelled by the reals; numpy's `linspace`,
`searchsorted` (on sorted input) and boolean-mask selection are embedded as
the corresponding list operations.  `np.mean` of an empty selection is a NaN
in numpy; in the real-valued model it becomes `0 / 0 = 0`, and no theorem
below depends on the value of an empty-bin average.
-/

namespace Potential

/-- Vacuum permittivity (F/m), `epsilon_0` of `potential.py`. -/
noncomputable def epsilon_0 : ℝ := 8.854187817e-12

/-- Elementary charge (C), `e` of `potential.py`. -/
noncomputable def e : ℝ := 1.602176634e-19

/-- Coulomb constant `k = 1 / (4 * np.pi * epsilon_0)`. -/
noncomputable def k : ℝ := 1 / (4 * Real.pi * epsilon_0)

/-- Factor `eV_to_J = e`, the 1 eV → J conversion factor. -/
noncomputable def eV_to_J : ℝ := e

/-- The softened distance `r = np.sqrt((x - x0)**2 + a**2)` of
`coulomb_softened`. -/
noncomputable def softened_r (x x0 a : ℝ) : ℝ :=
  Real.sqrt ((x - x0) ^ 2 + a ^ 2)

/-- Function `coulomb_softened(x, x0, Q, a)`: the softened Coulomb potential
`-Q e² k / r`, returned in eV by dividing by `e`. -/
noncomputable def coulomb_softened (x x0 Q a : ℝ) : ℝ :=
  (-Q * e ^ 2 * k / softened_r x x0 a) / e

/-- The integer list produced by Python's `range(lo, lo + len)`. -/
def rangeList (lo : ℤ) (len : ℕ) : List ℤ :=
  (List.range len).map (fun (i : ℕ) => lo + (i : ℤ))

/-- Function `V_total(x, Q, a, L, N, voisinage)`: the central index
`j_c = int(np.floor(x / L - 0.5))` is clamped into `[0, N-1]`, then the loop
`for j in range(j_c - voisinage, j_c + voisinage + 1)` accumulates
`coulomb_softened(x, (j+1)*L, Q, a)` for each `j` with `0 <= j < N`. -/
noncomputable def V_total (x Q a L : ℝ) (N voisinage : ℕ) : ℝ :=
  let j_c : ℤ := max 0 (min ((N : ℤ) - 1) ⌊x / L - 0.5⌋)
  (rangeList (j_c - voisinage) (2 * voisinage + 1)).foldl
    (fun V j =>
      if 0 ≤ j ∧ j < (N : ℤ) then V + coulomb_softened x ((j + 1) * L) Q a
      else V) 0

/-- The spec's reference value for the saturation and symmetry properties:
the unrestricted softened-Coulomb sum over all `N` lattice charges at
positions `(j+1)*L`, `j = 0 .. N-1`. -/
noncomputable def V_total_unrestricted (x Q a L : ℝ) (N : ℕ) : ℝ :=
  ∑ j ∈ Finset.Icc (0 : ℤ) ((N : ℤ) - 1), coulomb_softened x ((j + 1) * L) Q a

/-- Function `convert_energy(val)` of `potential.py`, with the module-level
configuration `unit` made an explicit argument: identity for `"eV"`,
multiplication by `eV_to_J` for `"J"`, `ValueError` otherwise. -/
noncomputable def convert_energy (val : ℝ) (unit : String) : Except String ℝ :=
  if unit = "eV" then Except.ok val
  else if unit = "J" then Except.ok (val * eV_to_J)
  else Except.error ("Unité non supportée : 'eV' ou 'J'")

/-- Model of `np.linspace(lo, hi, num)`: `num` evenly spaced points from `lo` to `hi`
inclusive (over the reals the final point is `hi` exactly). -/
noncomputable def linspace (lo hi : ℝ) (num : ℕ) : List ℝ :=
  (List.range num).map
    (fun (i : ℕ) => lo + (i : ℝ) * ((hi - lo) / ((num : ℝ) - 1)))

/-- The bin-edge grid built by `discretize_potential_with_boundaries`:
`np.linspace(x[0], x[-1], (n + 2) + 1)`. -/
noncomputable def discretize_edges (x : List ℝ) (n : ℕ) : List ℝ :=
  linspace x.headI (x.getLast?.getD 0) (n + 3)

/-- The boolean mask `(x >= x_edges[i]) & (x < x_edges[i+1])` applied to one
sample position. -/
noncomputable def bin_mask (x_edges : List ℝ) (i : ℕ) (xv : ℝ) : Bool :=
  decide (x_edges.getD i 0 ≤ xv) && decide (xv < x_edges.getD (i + 1) 0)

/-- The samples `(x_j, V_j)` selected by bin `i`'s mask. -/
noncomputable def bin_select (x V : List ℝ) (x_edges : List ℝ) (i : ℕ) :
    List (ℝ × ℝ) :=
  (x.zip V).filter (fun p => bin_mask x_edges i p.1)

/-- Model of `np.mean` on a list of reals (`0 / 0 = 0` when the list is empty). -/
noncomputable def mean (l : List ℝ) : ℝ := l.sum / l.length

/-- Function `discretize_potential_with_boundaries(x, V_continuous, n)`: `n+2` bins
over `[x[0], x[-1]]`; centers are edge midpoints; bins `0` and `n+1` get
height `0.0`, interior bins the mean of the masked samples.  Returns
`(x_centers, V_discrete, x_edges)`. -/
noncomputable def discretize_potential_with_boundaries
    (x V_continuous : List ℝ) (n : ℕ) : List ℝ × List ℝ × List ℝ :=
  let n_total := n + 2
  let x_edges := discretize_edges x n
  let x_centers := List.zipWith (fun a b => (a + b) / 2) x_edges x_edges.tail
  let V_discrete := (List.range n_total).map (fun i =>
    if i = 0 ∨ i = n_total - 1 then 0
    else mean ((bin_select x V_continuous x_edges i).map Prod.snd))
  (x_centers, V_discrete, x_edges)

/-- Model of `np.searchsorted(x_edges, v, side='right')` for sorted `x_edges`: the
number of edges `≤ v`, i.e. the right insertion index. -/
noncomputable def searchsorted_right (x_edges : List ℝ) (v : ℝ) : ℕ :=
  x_edges.countP (fun e2 => decide (e2 ≤ v))

/-- Function `V_discret_function(x_vals, x_edges, V_vals)`: per query point, the
right-search index minus one, clipped by `np.clip(·, 0, len(V_vals) - 1)`,
then the lookup `V_vals[index]`. -/
noncomputable def V_discret_function (x_vals x_edges V_vals : List ℝ) :
    List ℝ :=
  x_vals.map (fun q =>
    let idx : ℤ := (searchsorted_right x_edges q : ℤ) - 1
    let idxc : ℤ := min ((V_vals.length : ℤ) - 1) (max 0 idx)
    V_vals.getD idxc.toNat 0)

lemma rangeList_succ (lo : ℤ) (n : ℕ) :
    rangeList lo (n + 1) = lo :: rangeList (lo + 1) n := by
  unfold rangeList
  rw [List.range_succ_eq_map, List.map_cons, List.map_map]
  refine congrArg₂ _ (by simp) (List.map_congr_left ?_)
  intro i _
  simp only [Function.comp_apply]
  push_cast
  ring

/-- A guarded accumulating `for`-loop over `range(lo, lo + len)` is the
filtered interval sum. -/
lemma foldl_window (f : ℤ → ℝ) (N : ℤ) :
    ∀ (len : ℕ) (lo : ℤ) (init : ℝ),
      (rangeList lo len).foldl
          (fun V j => if 0 ≤ j ∧ j < N then V + f j else V) init
        = init + ∑ j ∈ (Finset.Icc lo (lo + len - 1)).filter
            (fun j => 0 ≤ j ∧ j < N), f j := by
  intro len
  induction len with
  | zero =>
    intro lo init
    have h : Finset.Icc lo (lo + (0 : ℕ) - 1) = ∅ :=
      Finset.Icc_eq_empty (by omega)
    simp [rangeList, h]
  | succ n ih =>
    intro lo init
    rw [rangeList_succ, List.foldl_cons, ih]
    have hb : lo + 1 + (n : ℤ) - 1 = lo + n := by ring
    have hb2 : lo + ((n : ℕ) + 1 : ℕ) - 1 = lo + (n : ℤ) := by push_cast; ring
    rw [hb, hb2]
    have hins : Finset.Icc lo (lo + (n : ℤ)) =
        insert lo (Finset.Icc (lo + 1) (lo + (n : ℤ))) := by
      ext j
      simp only [Finset.mem_Icc, Finset.mem_insert]
      omega
    have hnotmem : lo ∉ (Finset.Icc (lo + 1) (lo + (n : ℤ))).filter
        (fun j => 0 ≤ j ∧ j < N) := by
      simp [Finset.mem_filter, Finset.mem_Icc]
    rw [hins, Finset.filter_insert]
    by_cases hP : 0 ≤ lo ∧ lo < N
    · rw [if_pos hP, if_pos hP, Finset.sum_insert hnotmem]
      ring
    · rw [if_neg hP, if_neg hP]

/-- Lemma: `V_total` computes the filtered window sum of `coulomb_softened`
contributions around the clamped central index. -/
lemma V_total_eq_sum (x Q a L : ℝ) (N voisinage : ℕ) :
    V_total x Q a L N voisinage =
      ∑ j ∈ (Finset.Icc (max 0 (min ((N : ℤ) - 1) ⌊x / L - 0.5⌋) - voisinage)
               (max 0 (min ((N : ℤ) - 1) ⌊x / L - 0.5⌋) + voisinage)).filter
          (fun j => 0 ≤ j ∧ j < (N : ℤ)),
        coulomb_softened x (((j : ℝ) + 1) * L) Q a := by
  unfold V_total
  rw [foldl_window (fun j : ℤ => coulomb_softened x (((j : ℝ) + 1) * L) Q a)
    ((N : ℤ)) (2 * voisinage + 1)
    (max 0 (min ((N : ℤ) - 1) ⌊x / L - 0.5⌋) - voisinage) 0]
  rw [zero_add]
  have hb : max 0 (min ((N : ℤ) - 1) ⌊x / L - 0.5⌋) - voisinage
      + ((2 * voisinage + 1 : ℕ) : ℤ) - 1
      = max 0 (min ((N : ℤ) - 1) ⌊x / L - 0.5⌋) + voisinage := by
    push_cast
    ring
  rw [hb]

/-- With `N ≥ 1` and a window of at least `N - 1` neighbors on each side,
the clamped window covers every charge index, so `V_total` is the
unrestricted sum. -/
lemma V_total_eq_unrestricted (x Q a L : ℝ) (N v : ℕ)
    (hN : 1 ≤ N) (hv : N - 1 ≤ v) :
    V_total x Q a L N v = V_total_unrestricted x Q a L N := by
  rw [V_total_eq_sum]
  unfold V_total_unrestricted
  refine Finset.sum_congr ?_ (fun _ _ => rfl)
  have hm1 : (0 : ℤ) ≤ max 0 (min ((N : ℤ) - 1) ⌊x / L - 0.5⌋) :=
    le_max_left _ _
  have hm2 : max 0 (min ((N : ℤ) - 1) ⌊x / L - 0.5⌋) ≤ (N : ℤ) - 1 :=
    max_le (by omega) (min_le_left _ _)
  ext j
  simp only [Finset.mem_filter, Finset.mem_Icc]
  omega

/-- C1: the evaluator returns exactly the sum, over every charge index `j`
in `[j_c − neighborhood, j_c + neighborhood] ∩ [0, N−1]` with
`j_c = ⌊x/L − 0.5⌋` clamped into `[0, N−1]`, of
`−Q·e²·k / sqrt((x − (j+1)·L)² + a²)` divided by the elementary charge `e`;
out-of-range indices contribute nothing. -/
theorem c1_windowed_filtered_sum (x Q a L : ℝ) (N voisinage : ℕ) :
    V_total x Q a L N voisinage =
      ∑ j ∈ (Finset.Icc (max 0 (min ((N : ℤ) - 1) ⌊x / L - 0.5⌋) - voisinage)
               (max 0 (min ((N : ℤ) - 1) ⌊x / L - 0.5⌋) + voisinage)).filter
          (fun j => 0 ≤ j ∧ j < (N : ℤ)),
        (-Q * e ^ 2 * k / Real.sqrt ((x - ((j : ℝ) + 1) * L) ^ 2 + a ^ 2)) / e := by
  rw [V_total_eq_sum]
  exact Finset.sum_congr rfl (fun j _ => rfl)

/-- C3: once `neighborhood ≥ N − 1`, `V_total` equals the unrestricted sum
over all `N` charges, and any two such neighborhoods give the same value. -/
theorem c3_neighborhood_saturation (x Q a L : ℝ) (N v₁ v₂ : ℕ)
    (hN : 1 ≤ N) (h₁ : N - 1 ≤ v₁) (h₂ : N - 1 ≤ v₂) :
    V_total x Q a L N v₁ = V_total_unrestricted x Q a L N ∧
      V_total x Q a L N v₁ = V_total x Q a L N v₂ := by
  have e₁ := V_total_eq_unrestricted x Q a L N v₁ hN h₁
  have e₂ := V_total_eq_unrestricted x Q a L N v₂ hN h₂
  exact ⟨e₁, e₁.trans e₂.symm⟩

/-- Witness for C3 at `x = 0, Q = 1, a = 1, L = 1, N = 2, v₁ = 1, v₂ = 5`. -/
theorem c3_neighborhood_saturation_witness :
    V_total 0 1 1 1 2 1 = V_total_unrestricted 0 1 1 1 2 ∧
      V_total 0 1 1 1 2 1 = V_total 0 1 1 1 2 5 :=
  c3_neighborhood_saturation 0 1 1 1 2 1 5 (by decide) (by decide) (by decide)

lemma getD_map_range (f : ℕ → ℝ) (m i : ℕ) (d : ℝ) (h : i < m) :
    ((List.range m).map f).getD i d = f i := by
  rw [List.getD_eq_getElem?_getD]
  simp [List.getElem?_map, List.getElem?_range, h]

lemma length_linspace (lo hi : ℝ) (num : ℕ) :
    (linspace lo hi num).length = num := by
  simp [linspace]

lemma getD_linspace (lo hi : ℝ) (num i : ℕ) (d : ℝ) (h : i < num) :
    (linspace lo hi num).getD i d
      = lo + (i : ℝ) * ((hi - lo) / ((num : ℝ) - 1)) :=
  getD_map_range _ num i d h

lemma getD_zipWith (g : ℝ → ℝ → ℝ) :
    ∀ (as bs : List ℝ) (i : ℕ) (d : ℝ), i < as.length → i < bs.length →
      (List.zipWith g as bs).getD i d = g (as.getD i d) (bs.getD i d) := by
  intro as
  induction as with
  | nil =>
    intro bs i d h1 _
    simp at h1
  | cons a as ih =>
    intro bs i d h1 h2
    cases bs with
    | nil => simp at h2
    | cons b bs =>
      cases i with
      | zero => simp
      | succ m =>
        simp only [List.zipWith_cons_cons, List.getD_cons_succ]
        exact ih bs m d (by simpa using h1) (by simpa using h2)

lemma getD_tail (l : List ℝ) (i : ℕ) (d : ℝ) :
    l.tail.getD i d = l.getD (i + 1) d := by
  cases l with
  | nil => simp
  | cons a l => simp

/-- The centers returned by the discretizer are the midpoints of
consecutive edges. -/
lemma discretize_centers_getD (x V : List ℝ) (n i : ℕ) (d : ℝ)
    (h : i < n + 2) :
    ((discretize_potential_with_boundaries x V n).1).getD i d
      = ((discretize_edges x n).getD i d
          + (discretize_edges x n).getD (i + 1) d) / 2 := by
  simp only [discretize_potential_with_boundaries]
  rw [getD_zipWith _ _ _ i d ?_ ?_, getD_tail]
  · simp only [discretize_edges, length_linspace]
    omega
  · rw [List.length_tail]
    simp only [discretize_edges, length_linspace]
    omega

/-- The heights returned by the discretizer: `0` on the two boundary bins,
the masked-sample mean on interior bins. -/
lemma discretize_heights_getD (x V : List ℝ) (n i : ℕ) (d : ℝ)
    (h : i < n + 2) :
    ((discretize_potential_with_boundaries x V n).2.1).getD i d
      = if i = 0 ∨ i = n + 1 then 0
        else mean ((bin_select x V (discretize_edges x n) i).map Prod.snd) := by
  simp only [discretize_potential_with_boundaries]
  rw [getD_map_range _ _ i d h]
  norm_num

/-- C2: for every input, `discretize_potential_with_boundaries` returns
centers and heights of length exactly `n + 2`, with `heights[0] = 0` and
`heights[n+1] = 0` — regardless of the sampled values. -/
theorem c2_boundary_clamped_shape (x V : List ℝ) (n : ℕ) :
    ((discretize_potential_with_boundaries x V n).1).length = n + 2 ∧
      ((discretize_potential_with_boundaries x V n).2.1).length = n + 2 ∧
      ((discretize_potential_with_boundaries x V n).2.1).getD 0 1 = 0 ∧
      ((discretize_potential_with_boundaries x V n).2.1).getD (n + 1) 1 = 0 := by
  refine ⟨?_, ?_, ?_, ?_⟩
  · simp only [discretize_potential_with_boundaries]
    rw [List.length_zipWith, List.length_tail]
    simp only [discretize_edges, length_linspace]
    omega
  · simp only [discretize_potential_with_boundaries]
    simp
  · rw [discretize_heights_getD x V n 0 1 (by omega)]
    simp
  · rw [discretize_heights_getD x V n (n + 1) 1 (by omega)]
    simp

/-- Membership in a bin's selection is the half-open edge test, for every
bin index. -/
lemma mem_bin_select (x V es : List ℝ) (i : ℕ) (p : ℝ × ℝ) :
    p ∈ bin_select x V es i ↔
      p ∈ x.zip V ∧ es.getD i 0 ≤ p.1 ∧ p.1 < es.getD (i + 1) 0 := by
  simp [bin_select, bin_mask, List.mem_filter, Bool.and_eq_true,
    decide_eq_true_eq, and_assoc]

/-- The right edge of the final bin is exactly the last sample position. -/
lemma discretize_edges_last (x : List ℝ) (n : ℕ) :
    (discretize_edges x n).getD (n + 2) 0 = x.getLast?.getD 0 := by
  unfold discretize_edges
  rw [getD_linspace _ _ _ _ _ (by omega)]
  have h2 : ((n + 3 : ℕ) : ℝ) - 1 = (n : ℝ) + 2 := by push_cast; ring
  have h3 : (n : ℝ) + 2 ≠ 0 := by positivity
  rw [h2]
  field_simp

/-- C6 counterexample: with samples `x = [0, 1/2, 1]`, `V = [5, 6, 7]` and
`n = 1` interior bin, the very last sample `(1, 7)` is NOT selected by the
final bin (index `n + 1 = 2`), although it is a zipped sample: the final
bin's test is still half-open on the right. -/
theorem c6_last_sample_excluded_counterexample :
    ((1 : ℝ), (7 : ℝ)) ∈ List.zip [(0 : ℝ), 1/2, 1] [(5 : ℝ), 6, 7] ∧
      ((1 : ℝ), (7 : ℝ)) ∉ bin_select [(0 : ℝ), 1/2, 1] [(5 : ℝ), 6, 7]
        (discretize_edges [(0 : ℝ), 1/2, 1] 1) 2 := by
  constructor
  · simp [List.zip]
  · rw [mem_bin_select]
    rintro ⟨-, -, hlt⟩
    rw [show (2 : ℕ) + 1 = 1 + 2 by rfl, discretize_edges_last] at hlt
    simp at hlt

/-- C6 amended: every bin of the discretizer, including the final bin
`n + 1`, selects the samples whose position lies in the half-open interval
`[x_edges[i], x_edges[i+1])`; consequently the very last sample point — it
equals the final bin's right edge — is excluded from the final bin. -/
theorem c6_uniform_half_open_selection (x V : List ℝ) (n i : ℕ)
    (p : ℝ × ℝ) :
    (p ∈ bin_select x V (discretize_edges x n) i ↔
        p ∈ x.zip V ∧ (discretize_edges x n).getD i 0 ≤ p.1 ∧
          p.1 < (discretize_edges x n).getD (i + 1) 0) ∧
      (p.1 = x.getLast?.getD 0 →
        p ∉ bin_select x V (discretize_edges x n) (n + 1)) := by
  refine ⟨mem_bin_select x V _ i p, ?_⟩
  intro hp hmem
  rw [mem_bin_select] at hmem
  obtain ⟨-, -, hlt⟩ := hmem
  rw [show n + 1 + 1 = n + 2 by rfl, discretize_edges_last, ← hp] at hlt
  exact lt_irrefl _ hlt

/-- Witness for C6 (amended) at `x = [0, 1]`, `V = [0, 0]`, `n = 0`,
final bin index `1`, sample `(1, 0)`. -/
theorem c6_uniform_half_open_selection_witness :
    ((1 : ℝ), (0 : ℝ)) ∉ bin_select [(0 : ℝ), 1] [(0 : ℝ), 0]
      (discretize_edges [(0 : ℝ), 1] 0) 1 :=
  (c6_uniform_half_open_selection [(0 : ℝ), 1] [(0 : ℝ), 0] 0 0
    ((1 : ℝ), (0 : ℝ))).2 (by simp)

lemma headI_le_mem (l : List ℝ) (hs : l.Sorted (· ≤ ·)) (b : ℝ)
    (hb : b ∈ l) : l.headI ≤ b := by
  cases l with
  | nil => simp at hb
  | cons a t =>
    rcases List.mem_cons.mp hb with rfl | hb'
    · simp
    · simpa using List.rel_of_sorted_cons hs b hb'

lemma mem_le_getLastD :
    ∀ (l : List ℝ), l.Sorted (· ≤ ·) → ∀ b ∈ l, b ≤ l.getLast?.getD 0 := by
  intro l
  induction l with
  | nil =>
    intro _ b hb
    simp at hb
  | cons a t ih =>
    intro hs b hb
    cases t with
    | nil =>
      simp only [List.mem_singleton] at hb
      subst hb
      simp
    | cons c t' =>
      rw [List.getLast?_cons_cons]
      rcases List.mem_cons.mp hb with rfl | hb'
      · calc b ≤ c := List.rel_of_sorted_cons hs c (List.mem_cons_self c t')
          _ ≤ (c :: t').getLast?.getD 0 :=
            ih hs.of_cons c (List.mem_cons_self c t')
      · exact ih hs.of_cons b hb'

/-- A query below the first sorted edge has right-insertion index `0`. -/
lemma searchsorted_lt_head (l : List ℝ) (q : ℝ) (hs : l.Sorted (· ≤ ·))
    (hq : q < l.headI) : searchsorted_right l q = 0 := by
  unfold searchsorted_right
  rw [List.countP_eq_zero]
  intro e2 he
  simp only [decide_eq_true_eq, not_le]
  exact lt_of_lt_of_le hq (headI_le_mem l hs e2 he)

/-- A query at or above the last sorted edge has right-insertion index
`length`. -/
lemma searchsorted_ge_last (l : List ℝ) (q : ℝ) (hs : l.Sorted (· ≤ ·))
    (hq : l.getLast?.getD 0 ≤ q) : searchsorted_right l q = l.length := by
  unfold searchsorted_right
  rw [List.countP_eq_length]
  intro e2 he
  simp only [decide_eq_true_eq]
  exact le_trans (mem_le_getLastD l hs e2 he) hq

/-- C4 counterexample: with `edges = [0, 1]` and `heights = [10, 20, 30]`
(both non-empty, edges sorted), the query `2` lies at or above the last
edge, yet the returned value is `20`, not the last height `30`: the claim's
"at or above `edges[-1]` returns the last height" fails for an arbitrary
edges/heights pair. -/
theorem c4_not_last_height_counterexample :
    V_discret_function [(2 : ℝ)] [(0 : ℝ), 1] [(10 : ℝ), 20, 30]
        = [(20 : ℝ)] ∧
      V_discret_function [(2 : ℝ)] [(0 : ℝ), 1] [(10 : ℝ), 20, 30]
        ≠ [(30 : ℝ)] := by
  have h : V_discret_function [(2 : ℝ)] [(0 : ℝ), 1] [(10 : ℝ), 20, 30]
      = [(20 : ℝ)] := by
    simp only [V_discret_function, searchsorted_right, List.map_cons,
      List.map_nil, List.countP_cons, List.countP_nil, decide_eq_true_eq]
    norm_num
  refine ⟨h, ?_⟩
  rw [h]
  simp

/-- C4 amended: for sorted non-empty edges and non-empty heights with
`heights.length + 1 ≤ edges.length` (the discretizer's contract),
`V_discret_function` returns one value per query point, each value is the
clipped right-search lookup, every value is an element of `heights`,
queries below `edges[0]` return `heights[0]`, and queries at or above
`edges[-1]` return the last height; no query fails. -/
theorem c4_piecewise_total_lookup (x_vals x_edges V_vals : List ℝ)
    (hs : x_edges.Sorted (· ≤ ·)) (hV : V_vals ≠ [])
    (hlen : V_vals.length + 1 ≤ x_edges.length) :
    (V_discret_function x_vals x_edges V_vals).length = x_vals.length ∧
      V_discret_function x_vals x_edges V_vals
        = x_vals.map (fun q => V_vals.getD
            (min ((V_vals.length : ℤ) - 1)
              (max 0 ((searchsorted_right x_edges q : ℤ) - 1))).toNat 0) ∧
      (∀ r ∈ V_discret_function x_vals x_edges V_vals, r ∈ V_vals) ∧
      (∀ q, q < x_edges.headI →
        V_discret_function [q] x_edges V_vals = [V_vals.headI]) ∧
      (∀ q, x_edges.getLast?.getD 0 ≤ q →
        V_discret_function [q] x_edges V_vals = [V_vals.getLast?.getD 0]) := by
  have hlenV : 1 ≤ V_vals.length := List.length_pos.mpr hV
  refine ⟨by simp [V_discret_function], rfl, ?_, ?_, ?_⟩
  · intro r hr
    obtain ⟨q, _, rfl⟩ := List.mem_map.mp hr
    show V_vals.getD
      (min ((V_vals.length : ℤ) - 1)
        (max 0 ((searchsorted_right x_edges q : ℤ) - 1))).toNat 0 ∈ V_vals
    have h2 : (min ((V_vals.length : ℤ) - 1)
        (max 0 ((searchsorted_right x_edges q : ℤ) - 1))).toNat
        < V_vals.length := by omega
    rw [List.getD_eq_getElem _ _ h2]
    exact List.getElem_mem h2
  · intro q hq
    simp only [V_discret_function, List.map_cons, List.map_nil]
    rw [searchsorted_lt_head x_edges q hs hq]
    have h0 : (min ((V_vals.length : ℤ) - 1)
        (max 0 (((0 : ℕ) : ℤ) - 1))).toNat = 0 := by omega
    rw [h0]
    cases V_vals with
    | nil => exact absurd rfl hV
    | cons v t => simp
  · intro q hq
    simp only [V_discret_function, List.map_cons, List.map_nil]
    rw [searchsorted_ge_last x_edges q hs hq]
    have h0 : (min ((V_vals.length : ℤ) - 1)
        (max 0 ((x_edges.length : ℤ) - 1))).toNat = V_vals.length - 1 := by
      omega
    rw [h0]
    rw [List.getD_eq_getElem?_getD, List.getLast?_eq_getElem? V_vals]

/-- Witness for C4 (amended): query `5` at or above the last edge of
`[0, 1, 2]` with heights `[10, 20]` returns the last height `20`. -/
theorem c4_piecewise_total_lookup_witness :
    V_discret_function [(5 : ℝ)] [(0 : ℝ), 1, 2] [(10 : ℝ), 20]
      = [(20 : ℝ)] := by
  have h := (c4_piecewise_total_lookup [(5 : ℝ)] [(0 : ℝ), 1, 2]
    [(10 : ℝ), 20] (by norm_num [List.sorted_cons]) (by simp)
    (by simp)).2.2.2.2 5 (by norm_num)
  simpa using h

lemma countP_range_threshold (q : ℕ → Bool) (t : ℕ)
    (hq : ∀ j, q j = true ↔ j < t) :
    ∀ m, (List.range m).countP q = min t m := by
  intro m
  induction m with
  | zero => simp
  | succ m ih =>
    rw [List.range_succ, List.countP_append, ih]
    by_cases hm : m < t
    · have hqm : q m = true := (hq m).mpr hm
      simp [hqm]
      omega
    · have hqm : q m = false := by
        cases hqmv : q m with
        | false => rfl
        | true => exact absurd ((hq m).mp hqmv) hm
      simp [hqm]
      omega

/-- The right-insertion index of bin `i`'s midpoint in a strictly
increasing linspace grid is `i + 1`. -/
lemma searchsorted_linspace_mid (lo hi : ℝ) (n i : ℕ) (h : lo < hi)
    (hi2 : i < n + 2) :
    searchsorted_right (linspace lo hi (n + 3))
      (((linspace lo hi (n + 3)).getD i 0
        + (linspace lo hi (n + 3)).getD (i + 1) 0) / 2) = i + 1 := by
  have hD : 0 < (hi - lo) / ((n : ℝ) + 2) := by
    have : (0 : ℝ) < (n : ℝ) + 2 := by positivity
    exact div_pos (by linarith) this
  have hcast : (((n + 3 : ℕ) : ℝ)) - 1 = (n : ℝ) + 2 := by push_cast; ring
  have hc : ((linspace lo hi (n + 3)).getD i 0
      + (linspace lo hi (n + 3)).getD (i + 1) 0) / 2
      = lo + ((i : ℝ) + 1 / 2) * ((hi - lo) / ((n : ℝ) + 2)) := by
    rw [getD_linspace _ _ _ _ _ (by omega), getD_linspace _ _ _ _ _ (by omega),
      hcast]
    push_cast
    ring
  rw [hc]
  unfold searchsorted_right linspace
  rw [List.countP_map, countP_range_threshold _ (i + 1) ?_ (n + 3)]
  · omega
  · intro j
    simp only [Function.comp_apply, decide_eq_true_eq]
    rw [hcast, add_le_add_iff_left, mul_le_mul_right hD]
    constructor
    · intro hj
      by_contra hc2
      push_neg at hc2
      have h3 : (i : ℝ) + 1 ≤ (j : ℝ) := by exact_mod_cast hc2
      linarith
    · intro hj
      have h3 : (j : ℝ) ≤ (i : ℝ) := by exact_mod_cast Nat.lt_succ_iff.mp hj
      linarith

/-- C5: evaluating the piecewise function at each bin's own center returns
exactly that bin's height, for every bin index `i` of a profile built over
a grid with `x[0] < x[-1]`. -/
theorem c5_center_roundtrip (x V : List ℝ) (n i : ℕ) (hi2 : i < n + 2)
    (hlt : x.headI < x.getLast?.getD 0) :
    V_discret_function
        [((discretize_potential_with_boundaries x V n).1).getD i 0]
        ((discretize_potential_with_boundaries x V n).2.2)
        ((discretize_potential_with_boundaries x V n).2.1)
      = [((discretize_potential_with_boundaries x V n).2.1).getD i 0] := by
  have hc := discretize_centers_getD x V n i 0 hi2
  have hlen : ((discretize_potential_with_boundaries x V n).2.1).length
      = n + 2 := by
    simp [discretize_potential_with_boundaries]
  have hedgesproj : (discretize_potential_with_boundaries x V n).2.2
      = discretize_edges x n := rfl
  have hss : searchsorted_right (discretize_edges x n)
      (((discretize_potential_with_boundaries x V n).1).getD i 0) = i + 1 := by
    rw [hc]
    unfold discretize_edges
    exact searchsorted_linspace_mid x.headI (x.getLast?.getD 0) n i hlt hi2
  simp only [V_discret_function, List.map_cons, List.map_nil, hedgesproj]
  rw [hss, hlen]
  have h0 : (min (((n + 2 : ℕ) : ℤ) - 1)
      (max 0 (((i + 1 : ℕ) : ℤ) - 1))).toNat = i := by omega
  rw [h0]

/-- Witness for C5 at `x = [0, 1]`, `V = [0, 0]`, `n = 1`, bin `i = 0`. -/
theorem c5_center_roundtrip_witness :
    V_discret_function
        [((discretize_potential_with_boundaries
            [(0 : ℝ), 1] [(0 : ℝ), 0] 1).1).getD 0 0]
        ((discretize_potential_with_boundaries
            [(0 : ℝ), 1] [(0 : ℝ), 0] 1).2.2)
        ((discretize_potential_with_boundaries
            [(0 : ℝ), 1] [(0 : ℝ), 0] 1).2.1)
      = [((discretize_potential_with_boundaries
            [(0 : ℝ), 1] [(0 : ℝ), 0] 1).2.1).getD 0 0] :=
  c5_center_roundtrip [(0 : ℝ), 1] [(0 : ℝ), 0] 1 0 (by omega) (by simp)

/-- C9: the lattice of `N` charges at `(j+1)·L` is symmetric about
`(N+1)·L/2`; with a saturated neighborhood the evaluator is an even
function of the offset from that midpoint. -/
theorem c9_midpoint_symmetry (Q a L d : ℝ) (N v : ℕ)
    (hN : 1 ≤ N) (hv : N - 1 ≤ v) :
    V_total (((N : ℝ) + 1) * L / 2 + d) Q a L N v
      = V_total (((N : ℝ) + 1) * L / 2 - d) Q a L N v := by
  rw [V_total_eq_unrestricted _ Q a L N v hN hv,
    V_total_eq_unrestricted _ Q a L N v hN hv]
  unfold V_total_unrestricted
  refine Finset.sum_nbij' (fun j => (N : ℤ) - 1 - j) (fun j => (N : ℤ) - 1 - j)
    ?_ ?_ ?_ ?_ ?_
  · intro j hj
    simp only [Finset.mem_Icc] at hj ⊢
    omega
  · intro j hj
    simp only [Finset.mem_Icc] at hj ⊢
    omega
  · intro j _
    ring
  · intro j _
    ring
  · intro j _
    unfold coulomb_softened softened_r
    have harg : (((N : ℝ) + 1) * L / 2 + d - ((j : ℝ) + 1) * L) ^ 2
        = (((N : ℝ) + 1) * L / 2 - d - ((((N : ℤ) - 1 - j : ℤ) : ℝ) + 1) * L) ^ 2 := by
      push_cast
      ring
    rw [harg]

/-- Witness for C9 at `Q = a = L = d = 1, N = 1, v = 0`. -/
theorem c9_midpoint_symmetry_witness :
    V_total ((((1 : ℕ) : ℝ) + 1) * 1 / 2 + 1) 1 1 1 1 0
      = V_total ((((1 : ℕ) : ℝ) + 1) * 1 / 2 - 1) 1 1 1 1 0 :=
  c9_midpoint_symmetry 1 1 1 1 1 0 (by decide) (by decide)

lemma e_pos : (0 : ℝ) < e := by unfold e; norm_num

lemma k_pos : (0 : ℝ) < k := by
  unfold k epsilon_0
  positivity

/-- For `a > 0` the softened divisor is bounded below by `a`. -/
lemma le_softened_r (x x0 a : ℝ) (ha : 0 < a) : a ≤ softened_r x x0 a := by
  unfold softened_r
  have h2 : Real.sqrt (a ^ 2) ≤ Real.sqrt ((x - x0) ^ 2 + a ^ 2) :=
    Real.sqrt_le_sqrt (by nlinarith [sq_nonneg (x - x0)])
  rwa [Real.sqrt_sq ha.le] at h2

/-- For `a > 0` each single-charge contribution is bounded in magnitude by
`|Q|·e·k / a`. -/
lemma coulomb_softened_abs_le (x x0 Q a : ℝ) (ha : 0 < a) :
    |coulomb_softened x x0 Q a| ≤ |Q| * e * k / a := by
  have hr : 0 < softened_r x x0 a := lt_of_lt_of_le ha (le_softened_r x x0 a ha)
  have habs : |coulomb_softened x x0 Q a|
      = |Q| * e * k / softened_r x x0 a / e * e := by
    unfold coulomb_softened
    rw [abs_div, abs_div, abs_mul, abs_mul, abs_neg,
      abs_of_pos (pow_pos e_pos 2), abs_of_pos k_pos, abs_of_pos e_pos,
      abs_of_pos hr]
    field_simp
    ring
  rw [habs]
  have hstep : |Q| * e * k / softened_r x x0 a ≤ |Q| * e * k / a := by
    have h1 := le_softened_r x x0 a ha
    have hnum : (0 : ℝ) ≤ |Q| * e * k := by
      have he := e_pos
      have hk := k_pos
      positivity
    gcongr
  calc |Q| * e * k / softened_r x x0 a / e * e
      = |Q| * e * k / softened_r x x0 a :=
        div_mul_cancel₀ _ (ne_of_gt e_pos)
    _ ≤ |Q| * e * k / a := hstep

/-- C7: for `a > 0` the softened divisor is bounded below by `a` (hence
nonzero, also when `x` sits exactly on the charge at `x0`), each
single-charge contribution is bounded in magnitude by `|Q|·e·k / a`, and
the evaluator's value is bounded by the window size times that bound — the
division is guarded and the result is finite. -/
theorem c7_softening_guards_division (x x0 Q a L : ℝ) (N v : ℕ)
    (ha : 0 < a) :
    (a ≤ softened_r x x0 a ∧ softened_r x x0 a ≠ 0 ∧
        |coulomb_softened x x0 Q a| ≤ |Q| * e * k / a) ∧
      |V_total x Q a L N v| ≤ ((2 * v + 1 : ℕ) : ℝ) * (|Q| * e * k / a) := by
  have h1 := le_softened_r x x0 a ha
  have hb : (0 : ℝ) ≤ |Q| * e * k / a := by
    have he := e_pos
    have hk := k_pos
    positivity
  refine ⟨⟨h1, ne_of_gt (lt_of_lt_of_le ha h1),
    coulomb_softened_abs_le x x0 Q a ha⟩, ?_⟩
  rw [V_total_eq_sum]
  set s := (Finset.Icc (max 0 (min ((N : ℤ) - 1) ⌊x / L - 0.5⌋) - v)
    (max 0 (min ((N : ℤ) - 1) ⌊x / L - 0.5⌋) + v)).filter
      (fun j => 0 ≤ j ∧ j < (N : ℤ)) with hsdef
  calc |∑ j ∈ s, coulomb_softened x (((j : ℝ) + 1) * L) Q a|
      ≤ ∑ j ∈ s, |coulomb_softened x (((j : ℝ) + 1) * L) Q a| :=
        Finset.abs_sum_le_sum_abs _ _
    _ ≤ s.card • (|Q| * e * k / a) :=
        Finset.sum_le_card_nsmul _ _ _
          (fun j _ => coulomb_softened_abs_le x _ Q a ha)
    _ = (s.card : ℝ) * (|Q| * e * k / a) := nsmul_eq_mul _ _
    _ ≤ ((2 * v + 1 : ℕ) : ℝ) * (|Q| * e * k / a) := by
        refine mul_le_mul_of_nonneg_right ?_ hb
        have hcard : s.card ≤ 2 * v + 1 := by
          rw [hsdef]
          refine le_trans (Finset.card_filter_le _ _) ?_
          rw [Int.card_Icc]
          omega
        exact_mod_cast hcard

/-- Witness for C7 at `x = 0, x0 = 0, Q = 1, a = 1, L = 1, N = 1, v = 0`. -/
theorem c7_softening_guards_division_witness :
    ((1 : ℝ) ≤ softened_r 0 0 1 ∧ softened_r 0 0 1 ≠ 0 ∧
        |coulomb_softened 0 0 1 1| ≤ |(1 : ℝ)| * e * k / 1) ∧
      |V_total 0 1 1 1 1 0| ≤ ((2 * 0 + 1 : ℕ) : ℝ) * (|(1 : ℝ)| * e * k / 1) :=
  c7_softening_guards_division 0 0 1 1 1 1 0 (by norm_num)

/-- C8: `convert_energy` is the identity for `"eV"`, multiplication by the
elementary charge `1.602176634e-19` for `"J"`, and a `ValueError` for every
other unit tag — and these are the only behaviors. -/
theorem c8_convert_energy_cases (val : ℝ) (unit : String) :
    convert_energy val ("eV") = Except.ok val ∧
      convert_energy val ("J") = Except.ok (val * 1.602176634e-19) ∧
      (unit ≠ "eV" → unit ≠ "J" →
        convert_energy val unit
          = Except.error ("Unité non supportée : 'eV' ou 'J'")) := by
  refine ⟨?_, ?_, ?_⟩
  · unfold convert_energy
    rw [if_pos rfl]
  · unfold convert_energy
    rw [if_neg (by decide), if_pos rfl]
    unfold eV_to_J e
    norm_num
  · intro h1 h2
    unfold convert_energy
    rw [if_neg h1, if_neg h2]

/-- Witness for C8 at `val = 1` with tags `"eV"`, `"J"`, `"xyz"`. -/
theorem c8_convert_energy_cases_witness :
    convert_energy 1 ("eV") = Except.ok 1 ∧
      convert_energy 1 ("J") = Except.ok (1 * 1.602176634e-19) ∧
      convert_energy 1 ("xyz")
        = Except.error ("Unité non supportée : 'eV' ou 'J'") :=
  ⟨(c8_convert_energy_cases 1 ("xyz")).1,
    (c8_convert_energy_cases 1 ("xyz")).2.1,
    (c8_convert_energy_cases 1 ("xyz")).2.2 (by decide) (by decide)⟩

end Potential

namespace Potentiel

/-- Function `potentiel_coulombien_adouci(x, x0, Q, a)` of `code/potentiel.py`, with
its locally defined constants `eps0` and `e`:
`-Q e / (4 π eps0 sqrt((x - x0)² + a²))`. -/
noncomputable def potentiel_coulombien_adouci (x x0 Q a : ℝ) : ℝ :=
  let eps0 : ℝ := 8.854187817e-12
  let e : ℝ := 1.602176634e-19
  (-Q * e) / (4 * Real.pi * eps0 * Real.sqrt ((x - x0) ^ 2 + a ^ 2))

end Potentiel

/-- Cancelling the extra factor of the elementary charge `c` between the two
forms of the softened Coulomb kernel. -/
lemma coulomb_div_cancel (Q c ε r : ℝ) (hc : c ≠ 0) :
    (-Q * c) / (ε * r) = -Q * c ^ 2 * (1 / ε) / r / c := by
  rw [div_div, show -Q * c ^ 2 * (1 / ε) = -Q * c * (1 / ε) * c by ring,
    mul_div_mul_right _ _ hc]
  ring

/-- C10: the early kernel `potentiel_coulombien_adouci` of
`code/potentiel.py` and `coulomb_softened` of `src/potential.py` compute
the same value: `−Q·e/(4π·ε₀·r)` equals `(−Q·e²·k/r)/e` with
`k = 1/(4π·ε₀)`. -/
theorem c10_kernel_equivalence (x x0 Q a : ℝ) :
    Potentiel.potentiel_coulombien_adouci x x0 Q a
      = Potential.coulomb_softened x x0 Q a := by
  simp only [Potentiel.potentiel_coulombien_adouci,
    Potential.coulomb_softened, Potential.softened_r, Potential.k,
    Potential.e, Potential.epsilon_0]
  exact coulomb_div_cancel Q 1.602176634e-19
    (4 * Real.pi * 8.854187817e-12)
    (Real.sqrt ((x - x0) ^ 2 + a ^ 2)) (by norm_num)
